import Mathlib

/-!
# ep-file-system-server: chunk streamer and storage resolver

A shallow embedding of `src/server/io/io.go` (`FileInfo.Exists`, `StreamLocalFile`,
`stream`), `src/server/fs.go` (`getFilePath`) and of the upload-back loop of
`TestReceiveSend` in `src/server/main_test.go`, followed by the properties of the
specification that concern them.

Conventions of the embedding:
* a Go `error` is `Option GoError` (`none` is `nil`);
* a Go multiple return `(a, b, err)` is a structure or a tuple with the same components;
* the callback `handle Handle` is a function on an explicit handler state `σ`:
  one call `handle(buf)` is one step `σ → List Byte → σ`;
* `int64` counters are integers reduced with `wrapInt64` after every addition;
* a run-time panic and `log.Fatalf` are outcomes of their own, next to a return.
-/

set_option autoImplicit false

namespace EpFs

/-! ## Go values -/

/-- One byte of file content. -/
abbrev Byte := UInt8

/-- Go error values as the code distinguishes them: the sentinel `io.EOF` (tested with
`err == io.EOF`), the errors that satisfy `errors.Is(err, os.ErrNotExist)`, and every
other error. -/
inductive GoError where
  | EOF : GoError
  | notExist (msg : String) : GoError
  | other (msg : String) : GoError
  deriving DecidableEq

/-- The method `Error()` of an error value. -/
def GoError.Error : GoError → String
  | .EOF => "EOF"
  | .notExist msg => msg
  | .other msg => msg

/-- The test `errors.Is(err, os.ErrNotExist)`; it is false for a nil error. -/
def errorsIsNotExist : Option GoError → Bool
  | some (.notExist _) => true
  | _ => false

/-- Reduction of an integer to the range of `int64`, as the wrap-around of Go signed
arithmetic does. -/
def wrapInt64 (x : Int) : Int := (x + 2 ^ 63) % 2 ^ 64 - 2 ^ 63

/-! ## `stream` (io.go, lines 107-137) -/

/-- Result of one `reader.Read(buf[:cap(buf)])`: the `n` bytes stored in `buf[:n]`
(so `n = data.length`, and `n ≤ cap(buf)` by the contract of `Read`) and the error. -/
structure ReadResult where
  data : List Byte
  err : Option GoError
  deriving DecidableEq

/-- Number of bytes `n` returned by a read. -/
def ReadResult.n (r : ReadResult) : Nat := r.data.length

/-- How a run of `stream` over a script of read results ends. `returned` carries the
handler state and the triple `(bytesNumber, chunksNumber, err)` that `stream` returns;
`running` is the loop state when the script is used up and the loop is about to issue
one more `Read`. -/
inductive StreamRun (σ : Type) where
  | returned (handler : σ) (bytesNumber chunksNumber : Int) (err : Option GoError) : StreamRun σ
  | running (handler : σ) (bytesNumber chunksNumber : Int) : StreamRun σ
  deriving DecidableEq

/-- Handler state at the end of a run. -/
def StreamRun.handler {σ : Type} : StreamRun σ → σ
  | .returned h _ _ _ => h
  | .running h _ _ => h

/-- The `for` loop of `stream`, one iteration per read result of the script. -/
def streamLoop {σ : Type} (handle : σ → List Byte → σ) :
    List ReadResult → σ → Int → Int → StreamRun σ
  | [], s, bytesNumber, chunksNumber => .running s bytesNumber chunksNumber
  | r :: rest, s, bytesNumber, chunksNumber =>
    if r.data.length = 0 then
      if r.err = none then
        streamLoop handle rest s bytesNumber chunksNumber
      else if r.err = some .EOF then
        .returned s bytesNumber chunksNumber none
      else
        .returned s 0 0 r.err
    else
      let chunksNumber := wrapInt64 (chunksNumber + 1)
      let bytesNumber := wrapInt64 (bytesNumber + (r.data.length : Int))
      let s := handle s r.data
      if r.err ≠ none ∧ r.err ≠ some .EOF then
        .returned s 0 0 r.err
      else
        streamLoop handle rest s bytesNumber chunksNumber

/-- The function `stream`: both counters start at zero. -/
def stream {σ : Type} (handle : σ → List Byte → σ) (reads : List ReadResult) (s : σ) :
    StreamRun σ :=
  streamLoop handle reads s 0 0

/-- The handler that records every slice it is called with, in call order. -/
def record (calls : List (List Byte)) (buf : List Byte) : List (List Byte) := calls ++ [buf]

/-! ### Vocabulary of the specification for read scripts -/

/-- A read of zero bytes with no error. -/
def ReadResult.isNoop (r : ReadResult) : Bool := r.data.isEmpty && r.err.isNone

/-- A read of zero bytes together with end-of-stream. -/
def ReadResult.isZeroEOF (r : ReadResult) : Bool := r.data.isEmpty && (r.err == some .EOF)

/-- A read that carries an error other than end-of-stream. -/
def ReadResult.isFailure (r : ReadResult) : Bool :=
  decide (r.err ≠ none ∧ r.err ≠ some .EOF)

/-- A read after which the loop issues no further read. -/
def ReadResult.isLast (r : ReadResult) : Bool := r.isZeroEOF || r.isFailure

/-- The reads that the loop processes: the script up to and including the first read
that ends the loop. -/
def processed : List ReadResult → List ReadResult
  | [] => []
  | r :: rest => if r.isLast then [r] else r :: processed rest

/-- The data of every processed read that returned `n > 0`, in order. -/
def delivered (reads : List ReadResult) : List (List Byte) :=
  ((processed reads).filter (fun r => decide (0 < r.n))).map (fun r => r.data)

/-- Sum of the `n` of the processed reads with `n > 0`. -/
def deliveredBytes (reads : List ReadResult) : Nat :=
  ((delivered reads).map List.length).sum

/-! ## `bufio.Reader` over an `os.File` (Go standard library)

`StreamLocalFile` reads the file through `bufio.NewReader(f)`. The model follows
`bufio.Reader.Read` of the Go standard library. -/

/-- The method `(*os.File).Read` on a regular file whose unread bytes are `rest`, called
with a destination of length `k`: a full read of `min k rest.length` bytes, `(0, io.EOF)`
at the end of the file, `(0, nil)` for an empty destination. -/
def fileRead (rest : List Byte) (k : Nat) : ReadResult × List Byte :=
  if k = 0 then (⟨[], none⟩, rest)
  else if rest.length = 0 then (⟨[], some .EOF⟩, rest)
  else (⟨rest.take k, none⟩, rest.drop k)

/-- Constant `defaultBufSize` of package `bufio`. -/
def defaultBufSize : Nat := 4096

/-- State of a `bufio.Reader`: the underlying file `rd`, the length `size` of the
internal buffer `b.buf`, the buffered unread bytes `b.buf[b.r:b.w]` and the stored
error `b.err`. -/
structure Reader where
  rd : List Byte
  size : Nat
  buffered : List Byte
  err : Option GoError
  deriving DecidableEq

/-- The constructor `bufio.NewReader(rd)`, which is `NewReaderSize(rd, defaultBufSize)`. -/
def NewReader (rd : List Byte) : Reader := ⟨rd, defaultBufSize, [], none⟩

/-- The method `bufio.Reader.Read(p)` with `len(p) = lenP`: the result and the next state.
With an empty internal buffer a destination at least as long as `b.buf` is filled
straight from the file; a shorter one triggers one read of the file into `b.buf`, from
which as many bytes as fit are copied. A non-empty internal buffer is copied from
without touching the file. -/
def Reader.Read (b : Reader) (lenP : Nat) : ReadResult × Reader :=
  if lenP = 0 then
    if 0 < b.buffered.length then (⟨[], none⟩, b)
    else (⟨[], b.err⟩, { b with err := none })
  else if b.buffered.length = 0 then
    if b.err ≠ none then (⟨[], b.err⟩, { b with err := none })
    else if b.size ≤ lenP then
      let res := fileRead b.rd lenP
      (⟨res.1.data, res.1.err⟩, { b with rd := res.2, err := none })
    else
      let res := fileRead b.rd b.size
      if res.1.data.length = 0 then
        (⟨[], res.1.err⟩, { b with rd := res.2, err := none })
      else
        (⟨res.1.data.take lenP, none⟩,
          { b with rd := res.2, buffered := res.1.data.drop lenP, err := res.1.err })
  else
    (⟨b.buffered.take lenP, none⟩, { b with buffered := b.buffered.drop lenP })

/-- The results of the first `k` calls `reader.Read(buf[:cap(buf)])` with
`cap(buf) = lenP`. -/
def Reader.reads (lenP : Nat) : Nat → Reader → List ReadResult
  | 0, _ => []
  | k + 1, b => (b.Read lenP).1 :: Reader.reads lenP k (b.Read lenP).2

/-! ## `StreamLocalFile` (io.go, lines 84-105) -/

/-- Largest value of the Go type `int` (64 bits). -/
def maxInt : Nat := 2 ^ 63 - 1

/-- Whether `make([]byte, 0, bufSize)` yields a buffer. The capacity, a `uint`, has to fit
in `int` and must not exceed the allocation limit `maxAlloc` of the Go runtime (a
constant of the platform); otherwise `make` panics with "makeslice: cap out of range". -/
def makeSucceeds (maxAlloc bufSize : Nat) : Bool :=
  decide (bufSize ≤ maxInt) && decide (bufSize ≤ maxAlloc)

/-- How a call of `StreamLocalFile` ends: `fatal` is `log.Fatalf` (the message is logged
and the process exits with status 1, nothing is returned), `panicked` is the run-time
panic of `make` (nothing is returned), `returned` is a return with the error value,
`unfinished` is a run whose budget of reads is used up inside `stream`. Each carries the
handler state. -/
inductive CallEnd (σ : Type) where
  | fatal (logged : String) (handler : σ) : CallEnd σ
  | panicked (message : String) (handler : σ) : CallEnd σ
  | returned (handler : σ) (err : Option GoError) : CallEnd σ
  | unfinished (handler : σ) : CallEnd σ
  deriving DecidableEq

/-- The function `StreamLocalFile`. `maxAlloc` is the allocation limit of the runtime,
`osOpen` is `os.Open`: an error or the content of the opened file. After a successful
open the buffer is made with capacity `bufSize`, which panics for a capacity out of
range; otherwise the file is streamed through `bufio.NewReader`. `budget` bounds the
number of reads that are simulated. The deferred `f.Close()` and the `log.Println` before
the return change neither the handler state nor the returned error and are left out. -/
def StreamLocalFile {σ : Type} (maxAlloc : Nat)
    (osOpen : String → Except GoError (List Byte))
    (path : String) (bufSize : Nat) (handle : σ → List Byte → σ) (s : σ) (budget : Nat) :
    CallEnd σ :=
  match osOpen path with
  | .error e => .fatal ("Fail to read file " ++ path ++ ": " ++ e.Error) s
  | .ok f =>
    if makeSucceeds maxAlloc bufSize = true then
      match stream handle (Reader.reads bufSize budget (NewReader f)) s with
      | .returned h _ _ err => .returned h err
      | .running h _ _ => .unfinished h
    else
      .panicked "makeslice: cap out of range" s

/-! ## `FileInfo.Exists` (io.go, lines 45-54) -/

/-- The DTO `FileInfo`. -/
structure FileInfo where
  RelPath : String
  Size : Int
  deriving DecidableEq

/-- The method `FileInfo.ToFile`; `getPath` (declared outside `io.go`) is a parameter.
The result is the field `Value` of the file path. -/
def FileInfo.ToFile (getPath : String → String → Except GoError String) (i : FileInfo)
    (channel : String) : Except GoError String :=
  match getPath i.RelPath channel with
  | .error e => .error e
  | .ok path => .ok path

/-- The method `FileInfo.Exists`, returning the pair `(bool, error)`. `osStat` gives the
error of `os.Stat` on a path (`none` when the stat succeeds). -/
def FileInfo.Exists (getPath : String → String → Except GoError String)
    (osStat : String → Option GoError) (i : FileInfo) (channel : String) :
    Bool × Option GoError :=
  match i.ToFile getPath channel with
  | .error e => (false, some e)
  | .ok file =>
    if errorsIsNotExist (osStat file) then (false, none)
    else (true, none)

/-! ## `getFilePath` (fs.go, lines 12-14) -/

/-- An operand of `fmt.Sprintf`: a string, or a rune (`int32`) such as the constant
`os.PathSeparator`. -/
inductive FmtArg where
  | str (s : String) : FmtArg
  | rune (c : Char) : FmtArg

/-- The verb `%v`: a string is written as it is, an integer type (a rune is `int32`) in
decimal. -/
def fmtV : FmtArg → String
  | .str s => s
  | .rune c => Nat.repr c.toNat

/-- Constant `os.PathSeparator` on the target platform. -/
def PathSeparator : Char := '/'

/-- The function `getFilePath`, that is `fmt.Sprintf("%v%v%v", fsRootPath,
os.PathSeparator, relPath)`; the constant `fsRootPath` is a parameter. -/
def getFilePath (fsRootPath relPath : String) : String :=
  fmtV (.str fsRootPath) ++ fmtV (.rune PathSeparator) ++ fmtV (.str relPath)

/-! ## Upload-back loop of `TestReceiveSend` (main_test.go, lines 36-46) -/

/-- Constant `bufSize` of `main.go`. -/
def bufSize : Nat := 1024

/-- The loop `for i := 0; i < cap(downloaded); i += bufSize`, started at `i`, for at most
`budget` iterations. `downloaded` is the backing array of the slice up to its capacity;
the result is the list of chunks handed to `WriteBuf`, in order. -/
def uploadBackLoop (downloaded : List Byte) : Nat → Nat → List (List Byte)
  | 0, _ => []
  | budget + 1, i =>
    if i < downloaded.length then
      let stop := i + bufSize
      let stop := if downloaded.length ≤ stop then downloaded.length - 1 else stop
      (downloaded.drop i).take (stop - i) :: uploadBackLoop downloaded budget (i + bufSize)
    else []

/-- The chunks written by the whole loop; it runs at most `cap(downloaded)` times. -/
def uploadBack (downloaded : List Byte) : List (List Byte) :=
  uploadBackLoop downloaded downloaded.length 0

/-- Content of the file after the appending writes of `WriteBuf`. -/
def writtenFile (downloaded : List Byte) : List Byte := (uploadBack downloaded).flatten


/-! ## Chunk counts -/

/-- Ceiling of the quotient `a / b`. -/
def ceilDiv (a b : Nat) : Nat := (a + b - 1) / b

/-- Number of reads with `n > 0` that a `bufio.Reader` with an internal buffer of `bsz`
bytes serves for a file of `S` bytes when every destination has `B < bsz` bytes: each
full internal buffer is handed out in `ceil(bsz / B)` pieces, the last partial one in
`ceil((S mod bsz) / B)` pieces. -/
def refillChunkCount (bsz B S : Nat) : Nat :=
  (S / bsz) * ceilDiv bsz B + ceilDiv (S % bsz) B

/-! # Properties -/

/-! ## Arithmetic of `int64` -/

theorem wrapInt64_of_range (x : Int) (h0 : 0 ≤ x) (h1 : x < 2 ^ 63) : wrapInt64 x = x := by
  unfold wrapInt64
  omega

theorem wrapInt64_add_left (a b : Int) : wrapInt64 (wrapInt64 a + b) = wrapInt64 (a + b) := by
  unfold wrapInt64
  omega

theorem wrapInt64_zero : wrapInt64 0 = 0 := by
  decide

theorem wrapInt64_idem (a : Int) : wrapInt64 (wrapInt64 a) = wrapInt64 a := by
  unfold wrapInt64
  omega

/-! ## One iteration of the loop of `stream` -/

section Loop

variable {σ : Type} (handle : σ → List Byte → σ)

theorem streamLoop_noop (r : ReadResult) (rest : List ReadResult) (s : σ) (b c : Int)
    (h : r.isNoop = true) :
    streamLoop handle (r :: rest) s b c = streamLoop handle rest s b c := by
  obtain ⟨data, err⟩ := r
  simp [ReadResult.isNoop] at h
  obtain ⟨hd, he⟩ := h
  subst hd
  simp [streamLoop, he]

theorem streamLoop_zeroEOF (r : ReadResult) (rest : List ReadResult) (s : σ) (b c : Int)
    (h : r.isZeroEOF = true) :
    streamLoop handle (r :: rest) s b c = .returned s b c none := by
  obtain ⟨data, err⟩ := r
  simp [ReadResult.isZeroEOF] at h
  obtain ⟨hd, he⟩ := h
  subst hd
  subst he
  simp [streamLoop]

theorem streamLoop_failure (r : ReadResult) (rest : List ReadResult) (s : σ) (b c : Int)
    (h : r.isFailure = true) :
    streamLoop handle (r :: rest) s b c
      = .returned (if r.data.length = 0 then s else handle s r.data) 0 0 r.err := by
  obtain ⟨data, err⟩ := r
  simp [ReadResult.isFailure] at h
  obtain ⟨h1, h2⟩ := h
  by_cases hd : data.length = 0
  · simp [streamLoop, hd, h1, h2]
  · simp [streamLoop, hd, h1, h2]

theorem streamLoop_chunk (r : ReadResult) (rest : List ReadResult) (s : σ) (b c : Int)
    (hd : r.data.length ≠ 0) (h : r.isFailure = false) :
    streamLoop handle (r :: rest) s b c
      = streamLoop handle rest (handle s r.data) (wrapInt64 (b + (r.data.length : Int)))
          (wrapInt64 (c + 1)) := by
  obtain ⟨data, err⟩ := r
  simp [ReadResult.isFailure] at h
  simp only at hd
  rw [streamLoop]
  simp only [hd, if_false]
  by_cases he : err = none
  · simp [he]
  · have := h he
    simp [this]

end Loop

/-- Every read result is of exactly one of four kinds. -/
theorem ReadResult.kinds (r : ReadResult) :
    r.isNoop = true ∨ r.isZeroEOF = true ∨ r.isFailure = true
      ∨ (r.data.length ≠ 0 ∧ r.isFailure = false) := by
  obtain ⟨data, err⟩ := r
  by_cases hf : ReadResult.isFailure ⟨data, err⟩ = true
  · exact Or.inr (Or.inr (Or.inl hf))
  · have hf2 : ReadResult.isFailure ⟨data, err⟩ = false := by simpa using hf
    by_cases hd : data.length = 0
    · have hnil : data = [] := List.length_eq_zero.mp hd
      subst hnil
      simp [ReadResult.isFailure] at hf2
      by_cases he : err = none
      · left
        simp [ReadResult.isNoop, he]
      · right
        left
        simp [ReadResult.isZeroEOF, hf2 he]
    · exact Or.inr (Or.inr (Or.inr ⟨hd, hf2⟩))

/-! ## The processed reads and the delivered slices, one read at a time -/

theorem isLast_of_noop (r : ReadResult) (h : r.isNoop = true) : r.isLast = false := by
  obtain ⟨data, err⟩ := r
  simp [ReadResult.isNoop] at h
  obtain ⟨hd, he⟩ := h
  subst hd
  subst he
  simp [ReadResult.isLast, ReadResult.isZeroEOF, ReadResult.isFailure]

theorem isLast_of_chunk (r : ReadResult) (hd : r.data.length ≠ 0) (h : r.isFailure = false) :
    r.isLast = false := by
  have hne : r.data ≠ [] := fun e => hd (by simp [e])
  simp [ReadResult.isLast, ReadResult.isZeroEOF, h, hne]

theorem isFailure_of_zeroEOF (r : ReadResult) (h : r.isZeroEOF = true) :
    r.isFailure = false := by
  obtain ⟨data, err⟩ := r
  simp [ReadResult.isZeroEOF] at h
  simp [ReadResult.isFailure, h.2]

theorem delivered_noop (r : ReadResult) (rest : List ReadResult) (h : r.isNoop = true) :
    delivered (r :: rest) = delivered rest := by
  have hl := isLast_of_noop r h
  have hn : r.data = [] := by
    simp [ReadResult.isNoop] at h
    exact h.1
  simp [delivered, processed, hl, ReadResult.n, hn]

theorem delivered_zeroEOF (r : ReadResult) (rest : List ReadResult)
    (h : r.isZeroEOF = true) : delivered (r :: rest) = [] := by
  have hn : r.data = [] := by
    simp [ReadResult.isZeroEOF] at h
    exact h.1
  simp [delivered, processed, ReadResult.isLast, h, ReadResult.n, hn]

theorem delivered_failure (r : ReadResult) (rest : List ReadResult)
    (h : r.isFailure = true) :
    delivered (r :: rest) = if r.data.length = 0 then [] else [r.data] := by
  by_cases hd : r.data.length = 0
  · simp [delivered, processed, ReadResult.isLast, h, ReadResult.n, hd]
  · have hpos : 0 < r.data.length := Nat.pos_of_ne_zero hd
    simp [delivered, processed, ReadResult.isLast, h, ReadResult.n, hd, hpos]

theorem delivered_chunk (r : ReadResult) (rest : List ReadResult)
    (hd : r.data.length ≠ 0) (h : r.isFailure = false) :
    delivered (r :: rest) = r.data :: delivered rest := by
  have hl := isLast_of_chunk r hd h
  have hpos : 0 < r.data.length := Nat.pos_of_ne_zero hd
  simp [delivered, processed, hl, ReadResult.n, hpos]

/-! ## The outcome of the loop in closed form -/

section Outcome

variable {σ : Type} (handle : σ → List Byte → σ)

/-- The outcome of the loop: the handler has been applied to the delivered slices in
order; the run ends at the first read that is a zero-byte end-of-stream (counters
returned) or a failure (zeros returned), and is still running when there is none. -/
theorem streamLoop_outcome (reads : List ReadResult) :
    ∀ (s : σ) (b c : Int), wrapInt64 b = b → wrapInt64 c = c →
      streamLoop handle reads s b c =
        match reads.find? ReadResult.isLast with
        | none =>
          .running ((delivered reads).foldl handle s)
            (wrapInt64 (b + (deliveredBytes reads : Int)))
            (wrapInt64 (c + ((delivered reads).length : Int)))
        | some r =>
          if r.isFailure = true then
            .returned ((delivered reads).foldl handle s) 0 0 r.err
          else
            .returned ((delivered reads).foldl handle s)
              (wrapInt64 (b + (deliveredBytes reads : Int)))
              (wrapInt64 (c + ((delivered reads).length : Int))) none := by
  induction reads with
  | nil =>
    intro s b c hb hc
    simp [streamLoop, delivered, deliveredBytes, processed, hb, hc]
  | cons r rest ih =>
    intro s b c hb hc
    rcases r.kinds with h | h | h | ⟨hd, h⟩
    · rw [streamLoop_noop handle r rest s b c h, ih s b c hb hc]
      simp [List.find?, isLast_of_noop r h, deliveredBytes, delivered_noop r rest h]
    · rw [streamLoop_zeroEOF handle r rest s b c h]
      have hl : r.isLast = true := by simp [ReadResult.isLast, h]
      simp [List.find?, hl, isFailure_of_zeroEOF r h, deliveredBytes,
        delivered_zeroEOF r rest h, hb, hc]
    · rw [streamLoop_failure handle r rest s b c h]
      have hl : r.isLast = true := by simp [ReadResult.isLast, h]
      by_cases hd : r.data.length = 0
      · simp [List.find?, hl, h, delivered_failure r rest h, hd]
      · simp [List.find?, hl, h, delivered_failure r rest h, hd]
    · rw [streamLoop_chunk handle r rest s b c hd h,
        ih _ _ _ (wrapInt64_idem _) (wrapInt64_idem _)]
      have e1 : wrapInt64 (wrapInt64 (b + (r.data.length : Int)) + (deliveredBytes rest : Int))
          = wrapInt64 (b + ((r.data.length + deliveredBytes rest : Nat) : Int)) := by
        rw [wrapInt64_add_left]
        push_cast
        rw [add_assoc]
      have e2 : wrapInt64 (wrapInt64 (c + 1) + ((delivered rest).length : Int))
          = wrapInt64 (c + (((delivered rest).length + 1 : Nat) : Int)) := by
        rw [wrapInt64_add_left]
        push_cast
        congr 1
        ring
      simp only [List.find?, isLast_of_chunk r hd h, deliveredBytes,
        delivered_chunk r rest hd h, List.foldl_cons, List.map_cons, List.sum_cons,
        List.length_cons]
      simp only [deliveredBytes] at e1
      rw [e1, e2]

end Outcome

/-! ## Claims about `stream` -/

theorem find_isLast_append (pre post : List ReadResult) (r : ReadResult)
    (hpre : ∀ x ∈ pre, x.isLast = false) (hr : r.isLast = true) :
    (pre ++ r :: post).find? ReadResult.isLast = some r := by
  induction pre with
  | nil => simp [List.find?, hr]
  | cons x xs ih =>
    have hx : x.isLast = false := hpre x (List.mem_cons_self x xs)
    have hxs : ∀ y ∈ xs, y.isLast = false := fun y hy => hpre y (List.mem_cons_of_mem x hy)
    simp [List.find?, hx, ih hxs]

/-- Claim C2, as amended: when the loop reaches a read that fails with an error other
than end-of-stream (no earlier read ends the loop), `stream` returns that error with both
totals equal to zero, after the handler has received every slice delivered up to and
including that read. -/
theorem stream_failure_returns_zero_totals {σ : Type} (handle : σ → List Byte → σ)
    (pre post : List ReadResult) (r : ReadResult) (s : σ)
    (hpre : ∀ x ∈ pre, x.isLast = false) (hr : r.isFailure = true) :
    stream handle (pre ++ r :: post) s
      = .returned ((delivered (pre ++ r :: post)).foldl handle s) 0 0 r.err := by
  have hl : r.isLast = true := by simp [ReadResult.isLast, hr]
  unfold stream
  rw [streamLoop_outcome handle _ s 0 0 wrapInt64_zero wrapInt64_zero,
    find_isLast_append pre post r hpre hl]
  simp [hr]

theorem stream_failure_returns_zero_totals_witness :
    stream record ([⟨[1, 2], none⟩] ++ ⟨[3], some (.other "read failed")⟩ :: []) []
      = .returned ((delivered ([⟨[1, 2], none⟩] ++ ⟨[3], some (.other "read failed")⟩ :: [])).foldl
          record []) 0 0 (some (.other "read failed")) :=
  stream_failure_returns_zero_totals record [⟨[1, 2], none⟩] []
    ⟨[3], some (.other "read failed")⟩ [] (by decide) (by decide)

/-- Claim C2, counterexample: two bytes are read, then one more byte together with a
failure. Three bytes in two chunks have been accumulated and delivered, yet the totals
returned with the error are `0` and `0`. -/
theorem stream_failure_totals_not_accumulated :
    deliveredBytes [⟨[1, 2], none⟩, ⟨[3], some (.other "read failed")⟩] = 3
    ∧ (delivered [⟨[1, 2], none⟩, ⟨[3], some (.other "read failed")⟩]).length = 2
    ∧ stream record [⟨[1, 2], none⟩, ⟨[3], some (.other "read failed")⟩] []
        = .returned [[1, 2], [3]] 0 0 (some (.other "read failed"))
    ∧ stream record [⟨[1, 2], none⟩, ⟨[3], some (.other "read failed")⟩] []
        ≠ .returned [[1, 2], [3]] 3 2 (some (.other "read failed")) := by
  decide

theorem foldl_record (xs calls : List (List Byte)) : xs.foldl record calls = calls ++ xs := by
  induction xs generalizing calls with
  | nil => simp
  | cons x xs ih => simp [List.foldl_cons, ih, record]

theorem delivered_length_le (reads : List ReadResult) :
    (delivered reads).length ≤ deliveredBytes reads := by
  induction reads with
  | nil => simp [delivered, deliveredBytes, processed]
  | cons r rest ih =>
    rcases r.kinds with h | h | h | ⟨hd, h⟩
    · simpa [deliveredBytes, delivered_noop r rest h] using ih
    · simp [deliveredBytes, delivered_zeroEOF r rest h]
    · by_cases hd : r.data.length = 0
      · simp [deliveredBytes, delivered_failure r rest h, hd]
      · simp [deliveredBytes, delivered_failure r rest h, hd]
        omega
    · simp only [deliveredBytes, delivered_chunk r rest hd h, List.length_cons, List.map_cons,
        List.sum_cons]
      simp only [deliveredBytes] at ih
      omega

/-- Claim C4: for every script of reads and every handler, the handler is applied, in
order and once each, to exactly the data of the processed reads that returned `n > 0`
(a read that also carries an error included), so a recording handler ends with exactly
that list of slices; and when `stream` returns without error, the returned byte count is
the sum of those `n` and the returned chunk count is the number of handler calls, both
as `int64` values, hence equal to them whenever the sum is below `2 ^ 63`. -/
theorem stream_delivers_each_read_once {σ : Type} (handle : σ → List Byte → σ)
    (reads : List ReadResult) (s : σ) :
    (stream handle reads s).handler = (delivered reads).foldl handle s
    ∧ (stream record reads []).handler = delivered reads
    ∧ (∀ (h : σ) (b c : Int), stream handle reads s = .returned h b c none →
        b = wrapInt64 (deliveredBytes reads) ∧ c = wrapInt64 ((delivered reads).length)
        ∧ ((deliveredBytes reads : Int) < 2 ^ 63 →
            b = (deliveredBytes reads : Int) ∧ c = ((delivered reads).length : Int))) := by
  have key : ∀ {τ : Type} (g : τ → List Byte → τ) (t : τ),
      (stream g reads t).handler = (delivered reads).foldl g t := by
    intro τ g t
    unfold stream
    rw [streamLoop_outcome g reads t 0 0 wrapInt64_zero wrapInt64_zero]
    cases reads.find? ReadResult.isLast with
    | none => rfl
    | some r =>
      by_cases hf : r.isFailure = true
      · simp [hf, StreamRun.handler]
      · simp [hf, StreamRun.handler]
  refine ⟨key handle s, ?_, ?_⟩
  · rw [key record [], foldl_record]
    simp
  · intro h b c hret
    unfold stream at hret
    rw [streamLoop_outcome handle reads s 0 0 wrapInt64_zero wrapInt64_zero] at hret
    have hbc : b = wrapInt64 (deliveredBytes reads) ∧ c = wrapInt64 ((delivered reads).length) := by
      cases hfind : reads.find? ReadResult.isLast with
      | none => simp [hfind] at hret
      | some r =>
        by_cases hf : r.isFailure = true
        · simp only [hfind, hf, if_true] at hret
          have herr := (StreamRun.returned.inj hret).2.2.2
          simp [ReadResult.isFailure] at hf
          exact absurd herr hf.1
        · simp only [hfind, hf, if_false] at hret
          have hinj := StreamRun.returned.inj hret
          refine ⟨?_, ?_⟩
          · rw [← hinj.2.1]
            simp
          · rw [← hinj.2.2.1]
            simp
    refine ⟨hbc.1, hbc.2, ?_⟩
    intro hrange
    have hle := delivered_length_le reads
    refine ⟨?_, ?_⟩
    · rw [hbc.1]
      exact wrapInt64_of_range _ (by positivity) hrange
    · rw [hbc.2]
      exact wrapInt64_of_range _ (by positivity) (by omega)

theorem stream_delivers_each_read_once_witness :
    stream record [⟨[1, 2], none⟩, ⟨[], none⟩, ⟨[3], some .EOF⟩, ⟨[], some .EOF⟩] []
      = .returned [[1, 2], [3]] 3 2 none
    ∧ (deliveredBytes [⟨[1, 2], none⟩, ⟨[], none⟩, ⟨[3], some .EOF⟩, ⟨[], some .EOF⟩] : Int)
        < 2 ^ 63
    ∧ (3 : Int) = (deliveredBytes
        [⟨[1, 2], none⟩, ⟨[], none⟩, ⟨[3], some .EOF⟩, ⟨[], some .EOF⟩] : Int)
    ∧ (2 : Int) = ((delivered
        [⟨[1, 2], none⟩, ⟨[], none⟩, ⟨[3], some .EOF⟩, ⟨[], some .EOF⟩]).length : Int) :=
  ⟨by decide, by decide,
    ((stream_delivers_each_read_once record
      [⟨[1, 2], none⟩, ⟨[], none⟩, ⟨[3], some .EOF⟩, ⟨[], some .EOF⟩] []).2.2
        [[1, 2], [3]] 3 2 (by decide)).2.2 (by decide)⟩

/-- Reaching a zero-byte end-of-stream read before any failure is unaffected by a first
read that is neither of the two. -/
theorem reaches_cons_iff (r : ReadResult) (rest : List ReadResult) (h1 : r.isZeroEOF = false)
    (h2 : r.isFailure = false) :
    (∃ pre x post, r :: rest = pre ++ x :: post ∧ x.isZeroEOF = true
        ∧ ∀ y ∈ pre, y.isFailure = false)
      ↔ (∃ pre x post, rest = pre ++ x :: post ∧ x.isZeroEOF = true
        ∧ ∀ y ∈ pre, y.isFailure = false) := by
  constructor
  · rintro ⟨pre, x, post, heq, hx, hpre⟩
    cases pre with
    | nil =>
      simp only [List.nil_append, List.cons.injEq] at heq
      rw [← heq.1, h1] at hx
      cases hx
    | cons p ps =>
      simp only [List.cons_append, List.cons.injEq] at heq
      exact ⟨ps, x, post, heq.2, hx, fun y hy => hpre y (List.mem_cons_of_mem p hy)⟩
  · rintro ⟨pre, x, post, heq, hx, hpre⟩
    refine ⟨r :: pre, x, post, by simp [heq], hx, ?_⟩
    intro y hy
    rcases List.mem_cons.mp hy with e | e
    · rw [e]
      exact h2
    · exact hpre y e

theorem streamLoop_nil_error_iff {σ : Type} (handle : σ → List Byte → σ)
    (reads : List ReadResult) :
    ∀ (s : σ) (b c : Int),
      (∃ h b1 c1, streamLoop handle reads s b c = .returned h b1 c1 none)
        ↔ (∃ pre x post, reads = pre ++ x :: post ∧ x.isZeroEOF = true
            ∧ ∀ y ∈ pre, y.isFailure = false) := by
  induction reads with
  | nil =>
    intro s b c
    constructor
    · rintro ⟨h, b1, c1, hret⟩
      simp [streamLoop] at hret
    · rintro ⟨pre, x, post, heq, _, _⟩
      simp at heq
  | cons r rest ih =>
    intro s b c
    rcases r.kinds with h | h | h | ⟨hd, h⟩
    · rw [streamLoop_noop handle r rest s b c h, ih s b c]
      have hl := isLast_of_noop r h
      simp only [ReadResult.isLast, Bool.or_eq_false_iff] at hl
      exact (reaches_cons_iff r rest hl.1 hl.2).symm
    · rw [streamLoop_zeroEOF handle r rest s b c h]
      constructor
      · intro _
        exact ⟨[], r, rest, rfl, h, by simp⟩
      · intro _
        exact ⟨s, b, c, rfl⟩
    · rw [streamLoop_failure handle r rest s b c h]
      constructor
      · rintro ⟨h0, b1, c1, hret⟩
        have herr := (StreamRun.returned.inj hret).2.2.2
        simp [ReadResult.isFailure] at h
        exact absurd herr h.1
      · rintro ⟨pre, x, post, heq, hx, hpre⟩
        cases pre with
        | nil =>
          simp only [List.nil_append, List.cons.injEq] at heq
          rw [← heq.1] at hx
          rw [isFailure_of_zeroEOF r hx] at h
          cases h
        | cons p ps =>
          simp only [List.cons_append, List.cons.injEq] at heq
          have := hpre p (List.mem_cons_self p ps)
          rw [← heq.1, h] at this
          cases this
    · rw [streamLoop_chunk handle r rest s b c hd h, ih]
      have hl := isLast_of_chunk r hd h
      simp only [ReadResult.isLast, Bool.or_eq_false_iff] at hl
      exact (reaches_cons_iff r rest hl.1 hl.2).symm

/-- Claim C7: `stream` returns with a nil error if and only if the script reaches a read
of zero bytes together with end-of-stream before any read that carries an error other
than end-of-stream; and a read of `n > 0` bytes together with end-of-stream does not end
the loop: its bytes are handed to the handler, the counters advance, and the loop goes on
with the next read. -/
theorem stream_nil_error_iff_zero_EOF {σ : Type} (handle : σ → List Byte → σ)
    (reads : List ReadResult) (s : σ) :
    ((∃ h b c, stream handle reads s = .returned h b c none)
      ↔ (∃ pre x post, reads = pre ++ x :: post ∧ x.isZeroEOF = true
          ∧ ∀ y ∈ pre, y.isFailure = false))
    ∧ (∀ (data : List Byte) (rest : List ReadResult), data.length ≠ 0 →
        stream handle (⟨data, some .EOF⟩ :: rest) s
          = streamLoop handle rest (handle s data) (wrapInt64 (0 + (data.length : Int)))
              (wrapInt64 (0 + 1))) := by
  refine ⟨streamLoop_nil_error_iff handle reads s 0 0, ?_⟩
  intro data rest hd
  exact streamLoop_chunk handle ⟨data, some .EOF⟩ rest s 0 0 hd (by simp [ReadResult.isFailure])

theorem stream_nil_error_iff_zero_EOF_witness :
    stream record (⟨[7, 8], some .EOF⟩ :: [⟨[], some .EOF⟩]) []
      = streamLoop record [⟨[], some .EOF⟩] (record [] [7, 8])
          (wrapInt64 (0 + (([7, 8] : List Byte).length : Int))) (wrapInt64 (0 + 1)) :=
  (stream_nil_error_iff_zero_EOF record [] []).2 [7, 8] [⟨[], some .EOF⟩] (by decide)

theorem streamLoop_filter_noop {σ : Type} (handle : σ → List Byte → σ)
    (reads : List ReadResult) :
    ∀ (s : σ) (b c : Int),
      streamLoop handle (reads.filter (fun r => !r.isNoop)) s b c
        = streamLoop handle reads s b c := by
  induction reads with
  | nil =>
    intro s b c
    rfl
  | cons r rest ih =>
    intro s b c
    rcases r.kinds with h | h | h | ⟨hd, h⟩
    · rw [streamLoop_noop handle r rest s b c h]
      simp [List.filter, h, ih]
    · have hn : r.isNoop = false := by
        cases hc : r.isNoop with
        | false => rfl
        | true =>
          have := isLast_of_noop r hc
          simp [ReadResult.isLast, h] at this
      simp only [List.filter, hn, Bool.not_false]
      rw [streamLoop_zeroEOF handle r _ s b c h, streamLoop_zeroEOF handle r _ s b c h]
    · have hn : r.isNoop = false := by
        cases hc : r.isNoop with
        | false => rfl
        | true =>
          have := isLast_of_noop r hc
          simp [ReadResult.isLast, h] at this
      simp only [List.filter, hn, Bool.not_false]
      rw [streamLoop_failure handle r _ s b c h, streamLoop_failure handle r _ s b c h]
    · have hn : r.isNoop = false := by
        have hne : r.data ≠ [] := fun e => hd (by simp [e])
        simp [ReadResult.isNoop, hne]
      simp only [List.filter, hn, Bool.not_false]
      rw [streamLoop_chunk handle r _ s b c hd h, streamLoop_chunk handle r _ s b c hd h, ih]

/-- Claim C8: a read of zero bytes with no error is a no-op. The run of `stream` (handler
state, hence the slices passed to the handler, and the returned triple) depends only on
the script with those reads removed: two scripts that differ only by such reads, inserted
or removed at any positions and in any number, give the same run; and one such read
leaves the handler state and both counters untouched. -/
theorem stream_zero_byte_read_is_noop {σ : Type} (handle : σ → List Byte → σ) (s : σ) :
    (∀ reads : List ReadResult,
      stream handle (reads.filter (fun r => !r.isNoop)) s = stream handle reads s)
    ∧ (∀ reads1 reads2 : List ReadResult,
        reads1.filter (fun r => !r.isNoop) = reads2.filter (fun r => !r.isNoop) →
          stream handle reads1 s = stream handle reads2 s)
    ∧ (∀ (pre post : List ReadResult) (k : Nat),
        stream handle (pre ++ List.replicate k ⟨[], none⟩ ++ post) s
          = stream handle (pre ++ post) s)
    ∧ (∀ (rest : List ReadResult) (t : σ) (b c : Int),
        streamLoop handle (⟨[], none⟩ :: rest) t b c = streamLoop handle rest t b c) := by
  have hfilter : ∀ reads : List ReadResult,
      stream handle (reads.filter (fun r => !r.isNoop)) s = stream handle reads s :=
    fun reads => streamLoop_filter_noop handle reads s 0 0
  have hcongr : ∀ reads1 reads2 : List ReadResult,
      reads1.filter (fun r => !r.isNoop) = reads2.filter (fun r => !r.isNoop) →
        stream handle reads1 s = stream handle reads2 s := by
    intro reads1 reads2 heq
    rw [← hfilter reads1, heq, hfilter reads2]
  refine ⟨hfilter, hcongr, ?_, ?_⟩
  · intro pre post k
    apply hcongr
    have hrep : (List.replicate k (⟨[], none⟩ : ReadResult)).filter (fun r => !r.isNoop) = [] := by
      rw [List.filter_eq_nil_iff]
      intro a ha
      rw [List.eq_of_mem_replicate ha]
      decide
    simp [List.filter_append, hrep]
  · intro rest t b c
    exact streamLoop_noop handle ⟨[], none⟩ rest t b c (by decide)

theorem stream_zero_byte_read_is_noop_witness :
    stream record [⟨[], none⟩, ⟨[5], none⟩, ⟨[], none⟩, ⟨[], none⟩, ⟨[], some .EOF⟩] []
      = stream record [⟨[5], none⟩, ⟨[], some .EOF⟩, ⟨[], none⟩] [] :=
  (stream_zero_byte_read_is_noop record []).2.1
    [⟨[], none⟩, ⟨[5], none⟩, ⟨[], none⟩, ⟨[], none⟩, ⟨[], some .EOF⟩]
    [⟨[5], none⟩, ⟨[], some .EOF⟩, ⟨[], none⟩] (by decide)

/-! ## `bufio.Reader.Read` on a file, case by case -/

theorem Read_from_buffer (r p : List Byte) (bsz B : Nat) (hB : B ≠ 0) (hp : p.length ≠ 0) :
    Reader.Read ⟨r, bsz, p, none⟩ B = (⟨p.take B, none⟩, ⟨r, bsz, p.drop B, none⟩) := by
  have hpos : 0 < p.length := Nat.pos_of_ne_zero hp
  simp [Reader.Read, hB, hp, hpos]

theorem Read_refill_EOF (bsz B : Nat) (hB : B ≠ 0) (hlt : B < bsz) :
    Reader.Read ⟨[], bsz, [], none⟩ B = (⟨[], some .EOF⟩, ⟨[], bsz, [], none⟩) := by
  have h1 : ¬ bsz ≤ B := Nat.not_le.mpr hlt
  have h2 : bsz ≠ 0 := by omega
  simp [Reader.Read, fileRead, hB, h1, h2]

theorem Read_refill (r : List Byte) (bsz B : Nat) (hB : B ≠ 0) (hlt : B < bsz)
    (hr : r.length ≠ 0) :
    Reader.Read ⟨r, bsz, [], none⟩ B
      = (⟨(r.take bsz).take B, none⟩, ⟨r.drop bsz, bsz, (r.take bsz).drop B, none⟩) := by
  have h1 : ¬ bsz ≤ B := Nat.not_le.mpr hlt
  have h2 : bsz ≠ 0 := by omega
  have h3 : r ≠ [] := fun e => hr (by simp [e])
  simp [Reader.Read, fileRead, hB, h1, h2, hr, h3]

theorem Read_direct_EOF (bsz B : Nat) (hB : B ≠ 0) (hle : bsz ≤ B) :
    Reader.Read ⟨[], bsz, [], none⟩ B = (⟨[], some .EOF⟩, ⟨[], bsz, [], none⟩) := by
  simp [Reader.Read, fileRead, hB, hle]

theorem Read_direct (r : List Byte) (bsz B : Nat) (hB : B ≠ 0) (hle : bsz ≤ B)
    (hr : r.length ≠ 0) :
    Reader.Read ⟨r, bsz, [], none⟩ B = (⟨r.take B, none⟩, ⟨r.drop B, bsz, [], none⟩) := by
  simp [Reader.Read, fileRead, hB, hle, hr]

theorem reads_succ (B k : Nat) (b : Reader) :
    Reader.reads B (k + 1) b = (b.Read B).1 :: Reader.reads B k (b.Read B).2 := rfl

/-! ## Arithmetic of chunk counts -/

theorem ceilDiv_zero (B : Nat) (hB : 0 < B) : ceilDiv 0 B = 0 := by
  unfold ceilDiv
  apply Nat.div_eq_of_lt
  omega

theorem ceilDiv_pos_eq (m B : Nat) (hB : 0 < B) (hm : 0 < m) :
    ceilDiv m B = (m - 1) / B + 1 := by
  unfold ceilDiv
  have e : m + B - 1 = (m - 1) + B := by omega
  rw [e, Nat.add_div_right _ hB]

theorem ceilDiv_step (m B : Nat) (hB : 0 < B) (hm : 0 < m) :
    ceilDiv m B = 1 + ceilDiv (m - B) B := by
  rw [ceilDiv_pos_eq m B hB hm]
  by_cases h : B < m
  · rw [ceilDiv_pos_eq (m - B) B hB (by omega)]
    have e : m - 1 = (m - B - 1) + B := by omega
    rw [e, Nat.add_div_right _ hB]
    omega
  · have e : m - B = 0 := by omega
    rw [e, ceilDiv_zero B hB, Nat.div_eq_of_lt (by omega)]

theorem refillChunkCount_step (bsz B m : Nat) (hB : 0 < B) (hbsz : 0 < bsz) :
    ceilDiv (min bsz m) B + refillChunkCount bsz B (m - bsz) = refillChunkCount bsz B m := by
  unfold refillChunkCount
  by_cases h : bsz ≤ m
  · obtain ⟨k, rfl⟩ : ∃ k, m = k + bsz := ⟨m - bsz, by omega⟩
    rw [Nat.min_eq_left h, Nat.add_sub_cancel, Nat.add_div_right _ hbsz, Nat.add_mod_right]
    ring
  · have h2 : m < bsz := Nat.not_le.mp h
    have e1 : min bsz m = m := Nat.min_eq_right (Nat.le_of_lt h2)
    have e2 : m - bsz = 0 := by omega
    rw [e1, e2, Nat.div_eq_of_lt h2, Nat.mod_eq_of_lt h2]
    simp [ceilDiv_zero B hB]

/-! ## The reads that `StreamLocalFile` hands to `stream` -/

theorem chunk_read_facts (data : List Byte) (hd : data.length ≠ 0) :
    (⟨data, none⟩ : ReadResult).data.length ≠ 0
      ∧ (⟨data, none⟩ : ReadResult).isFailure = false
      ∧ (⟨data, none⟩ : ReadResult).isLast = false := by
  have h1 : (⟨data, none⟩ : ReadResult).data.length ≠ 0 := hd
  have h2 : (⟨data, none⟩ : ReadResult).isFailure = false := by simp [ReadResult.isFailure]
  exact ⟨h1, h2, isLast_of_chunk _ h1 h2⟩

/-- Destination shorter than the internal buffer: from a state with buffered bytes `p`
and unread file bytes `r`, the reads end with a zero-byte end-of-stream, deliver exactly
`p ++ r`, and count `ceil(|p| / B)` slices for the buffered bytes plus the refill count
of the rest of the file. -/
theorem reads_refill_phase (bsz B : Nat) (hB : 0 < B) (hlt : B < bsz) :
    ∀ (m : Nat) (p r : List Byte) (budget : Nat), p.length + r.length = m → m + 1 ≤ budget →
      (Reader.reads B budget ⟨r, bsz, p, none⟩).find? ReadResult.isLast
          = some ⟨[], some .EOF⟩
      ∧ (delivered (Reader.reads B budget ⟨r, bsz, p, none⟩)).flatten = p ++ r
      ∧ (delivered (Reader.reads B budget ⟨r, bsz, p, none⟩)).length
          = ceilDiv p.length B + refillChunkCount bsz B r.length := by
  intro m
  induction m using Nat.strong_induction_on with
  | _ m ih =>
    intro p r budget hm hbud
    obtain ⟨k, rfl⟩ : ∃ k, budget = k + 1 := ⟨budget - 1, by omega⟩
    have hB0 : B ≠ 0 := by omega
    rw [reads_succ]
    by_cases hp : p.length = 0
    · have hpnil : p = [] := List.length_eq_zero.mp hp
      subst hpnil
      by_cases hr : r.length = 0
      · have hrnil : r = [] := List.length_eq_zero.mp hr
        subst hrnil
        rw [Read_refill_EOF bsz B hB0 hlt]
        have hz : (⟨[], some .EOF⟩ : ReadResult).isZeroEOF = true := by decide
        refine ⟨by simp [List.find?, ReadResult.isLast, hz], ?_, ?_⟩
        · rw [delivered_zeroEOF _ _ hz]
          rfl
        · rw [delivered_zeroEOF _ _ hz]
          simp [refillChunkCount, ceilDiv_zero B hB]
      · rw [Read_refill r bsz B hB0 hlt hr]
        have hlen : ((r.take bsz).take B).length ≠ 0 := by
          simp only [List.length_take]
          omega
        obtain ⟨f1, f2, f3⟩ := chunk_read_facts _ hlen
        obtain ⟨h1, h2, h3⟩ := ih (((r.take bsz).drop B).length + (r.drop bsz).length)
          (by simp only [List.length_take, List.length_drop] at *; omega)
          ((r.take bsz).drop B) (r.drop bsz) k rfl
          (by simp only [List.length_take, List.length_drop] at *; omega)
        refine ⟨?_, ?_, ?_⟩
        · simp only [List.find?, f3]
          exact h1
        · rw [delivered_chunk _ _ f1 f2, List.flatten_cons, h2]
          simp only [List.nil_append]
          rw [← List.append_assoc, List.take_append_drop, List.take_append_drop]
        · rw [delivered_chunk _ _ f1 f2, List.length_cons, h3]
          have hpos : 0 < (r.take bsz).length := by
            simp only [List.length_take]
            omega
          have e1 := ceilDiv_step (r.take bsz).length B hB hpos
          have e2 := refillChunkCount_step bsz B r.length hB (by omega)
          simp only [List.length_take, List.length_drop, List.length_nil] at *
          rw [ceilDiv_zero B hB]
          omega
    · rw [Read_from_buffer r p bsz B hB0 hp]
      have hlen : (p.take B).length ≠ 0 := by
        simp only [List.length_take]
        omega
      obtain ⟨f1, f2, f3⟩ := chunk_read_facts _ hlen
      obtain ⟨h1, h2, h3⟩ := ih ((p.drop B).length + r.length)
        (by simp only [List.length_drop] at *; omega)
        (p.drop B) r k rfl
        (by simp only [List.length_drop] at *; omega)
      refine ⟨?_, ?_, ?_⟩
      · simp only [List.find?, f3]
        exact h1
      · rw [delivered_chunk _ _ f1 f2, List.flatten_cons, h2]
        rw [← List.append_assoc, List.take_append_drop]
      · rw [delivered_chunk _ _ f1 f2, List.length_cons, h3]
        have e1 := ceilDiv_step p.length B hB (Nat.pos_of_ne_zero hp)
        simp only [List.length_drop] at *
        omega

/-- Destination at least as long as the internal buffer: every read goes straight to the
file, so the reads end with a zero-byte end-of-stream, deliver exactly the file and
count `ceil(|r| / B)` slices. -/
theorem reads_direct_phase (bsz B : Nat) (hB : 0 < B) (hle : bsz ≤ B) :
    ∀ (m : Nat) (r : List Byte) (budget : Nat), r.length = m → m + 1 ≤ budget →
      (Reader.reads B budget ⟨r, bsz, [], none⟩).find? ReadResult.isLast
          = some ⟨[], some .EOF⟩
      ∧ (delivered (Reader.reads B budget ⟨r, bsz, [], none⟩)).flatten = r
      ∧ (delivered (Reader.reads B budget ⟨r, bsz, [], none⟩)).length
          = ceilDiv r.length B := by
  intro m
  induction m using Nat.strong_induction_on with
  | _ m ih =>
    intro r budget hm hbud
    obtain ⟨k, rfl⟩ : ∃ k, budget = k + 1 := ⟨budget - 1, by omega⟩
    have hB0 : B ≠ 0 := by omega
    rw [reads_succ]
    by_cases hr : r.length = 0
    · have hrnil : r = [] := List.length_eq_zero.mp hr
      subst hrnil
      rw [Read_direct_EOF bsz B hB0 hle]
      have hz : (⟨[], some .EOF⟩ : ReadResult).isZeroEOF = true := by decide
      refine ⟨by simp [List.find?, ReadResult.isLast, hz], ?_, ?_⟩
      · rw [delivered_zeroEOF _ _ hz]
        rfl
      · rw [delivered_zeroEOF _ _ hz]
        simp [ceilDiv_zero B hB]
    · rw [Read_direct r bsz B hB0 hle hr]
      have hlen : (r.take B).length ≠ 0 := by
        simp only [List.length_take]
        omega
      obtain ⟨f1, f2, f3⟩ := chunk_read_facts _ hlen
      obtain ⟨h1, h2, h3⟩ := ih (r.drop B).length
        (by simp only [List.length_drop] at *; omega)
        (r.drop B) k rfl
        (by simp only [List.length_drop] at *; omega)
      refine ⟨?_, ?_, ?_⟩
      · simp only [List.find?, f3]
        exact h1
      · rw [delivered_chunk _ _ f1 f2, List.flatten_cons, h2, List.take_append_drop]
      · rw [delivered_chunk _ _ f1 f2, List.length_cons, h3]
        have e1 := ceilDiv_step r.length B hB (Nat.pos_of_ne_zero hr)
        simp only [List.length_drop] at *
        omega

theorem reads_extend (B : Nat) (k j : Nat) :
    ∀ b : Reader, ∃ extra, Reader.reads B (k + j) b = Reader.reads B k b ++ extra := by
  induction k with
  | zero =>
    intro b
    exact ⟨Reader.reads B (0 + j) b, rfl⟩
  | succ k ih =>
    intro b
    obtain ⟨extra, he⟩ := ih (b.Read B).2
    refine ⟨extra, ?_⟩
    have e : k + 1 + j = (k + j) + 1 := by omega
    rw [e, reads_succ, reads_succ, he]
    rfl

theorem processed_append (l extra : List ReadResult) (x : ReadResult)
    (h : l.find? ReadResult.isLast = some x) : processed (l ++ extra) = processed l := by
  induction l with
  | nil => simp at h
  | cons r rest ih =>
    by_cases hl : r.isLast = true
    · simp [processed, hl]
    · have hl2 : r.isLast = false := by simpa using hl
      simp only [List.find?, hl2] at h
      simp [processed, hl2, ih h]

theorem delivered_append (l extra : List ReadResult) (x : ReadResult)
    (h : l.find? ReadResult.isLast = some x) : delivered (l ++ extra) = delivered l := by
  unfold delivered
  rw [processed_append l extra x h]

/-- The slices that `stream` hands to the handler when it reads a file with content `f`
through `bufio.NewReader` into a buffer of capacity `B > 0`: they are the same for every
budget of at least `|f| + 1` reads, the run ends with a zero-byte end-of-stream, the
slices concatenate to `f`, and their number is `ceil(|f| / B)` for `B ≥ 4096` and the
refill count otherwise. -/
theorem file_reads_facts (f : List Byte) (B : Nat) (hB : 0 < B) :
    (∀ budget, f.length + 1 ≤ budget →
        (Reader.reads B budget (NewReader f)).find? ReadResult.isLast = some ⟨[], some .EOF⟩
        ∧ delivered (Reader.reads B budget (NewReader f))
            = delivered (Reader.reads B (f.length + 1) (NewReader f)))
    ∧ (delivered (Reader.reads B (f.length + 1) (NewReader f))).flatten = f
    ∧ (delivered (Reader.reads B (f.length + 1) (NewReader f))).length
        = if defaultBufSize ≤ B then ceilDiv f.length B
          else refillChunkCount defaultBufSize B f.length := by
  have base : (Reader.reads B (f.length + 1) (NewReader f)).find? ReadResult.isLast
        = some ⟨[], some .EOF⟩
      ∧ (delivered (Reader.reads B (f.length + 1) (NewReader f))).flatten = f
      ∧ (delivered (Reader.reads B (f.length + 1) (NewReader f))).length
        = if defaultBufSize ≤ B then ceilDiv f.length B
          else refillChunkCount defaultBufSize B f.length := by
    unfold NewReader
    by_cases hle : defaultBufSize ≤ B
    · obtain ⟨h1, h2, h3⟩ := reads_direct_phase defaultBufSize B hB hle f.length f
        (f.length + 1) rfl (Nat.le_refl _)
      exact ⟨h1, h2, by simp [hle, h3]⟩
    · obtain ⟨h1, h2, h3⟩ := reads_refill_phase defaultBufSize B hB (Nat.not_le.mp hle)
        f.length [] f (f.length + 1) (by simp) (Nat.le_refl _)
      refine ⟨h1, by simpa using h2, ?_⟩
      simp [hle, h3, ceilDiv_zero B hB]
  refine ⟨?_, base.2.1, base.2.2⟩
  intro budget hbud
  obtain ⟨j, rfl⟩ : ∃ j, budget = (f.length + 1) + j := ⟨budget - (f.length + 1), by omega⟩
  obtain ⟨extra, he⟩ := reads_extend B (f.length + 1) j (NewReader f)
  rw [he]
  refine ⟨?_, delivered_append _ extra _ base.1⟩
  rw [List.find?_append, base.1]
  rfl

theorem StreamLocalFile_ok {σ : Type} (maxAlloc : Nat)
    (osOpen : String → Except GoError (List Byte))
    (path : String) (f : List Byte) (B : Nat) (handle : σ → List Byte → σ) (s : σ)
    (budget : Nat) (hopen : osOpen path = .ok f) (hB : 0 < B)
    (hcap : makeSucceeds maxAlloc B = true) (hbud : f.length + 1 ≤ budget) :
    StreamLocalFile maxAlloc osOpen path B handle s budget
      = .returned ((delivered (Reader.reads B (f.length + 1) (NewReader f))).foldl handle s)
          none := by
  obtain ⟨h1, h2⟩ := (file_reads_facts f B hB).1 budget hbud
  unfold StreamLocalFile stream
  rw [hopen]
  simp only [hcap, if_true]
  rw [streamLoop_outcome handle _ s 0 0 wrapInt64_zero wrapInt64_zero, h1, h2]
  simp [ReadResult.isFailure]

theorem StreamLocalFile_cap_out_of_range {σ : Type} (maxAlloc : Nat)
    (osOpen : String → Except GoError (List Byte))
    (path : String) (f : List Byte) (B : Nat) (handle : σ → List Byte → σ) (s : σ)
    (budget : Nat) (hopen : osOpen path = .ok f) (hcap : makeSucceeds maxAlloc B = false) :
    StreamLocalFile maxAlloc osOpen path B handle s budget
      = .panicked "makeslice: cap out of range" s := by
  unfold StreamLocalFile
  rw [hopen]
  simp [hcap]

theorem refillChunkCount_eq_ceilDiv (bsz B S : Nat) (hB : 0 < B) (hbsz : 0 < bsz)
    (h : B ∣ bsz ∨ S ≤ bsz) : refillChunkCount bsz B S = ceilDiv S B := by
  unfold refillChunkCount
  rcases h with ⟨q, hq⟩ | h
  · have hc : ceilDiv bsz B = q := by
      unfold ceilDiv
      rw [hq]
      have e : B * q + B - 1 = (B - 1) + B * q := by omega
      rw [e, Nat.add_mul_div_left _ _ hB, Nat.div_eq_of_lt (by omega)]
      omega
    rw [hc]
    unfold ceilDiv
    have e : S + B - 1 = (S % bsz + B - 1) + B * (S / bsz * q) := by
      have := Nat.div_add_mod S bsz
      have e2 : B * (S / bsz * q) = bsz * (S / bsz) := by
        rw [hq]
        ring
      have hS : 0 < S % bsz + B := by omega
      omega
    rw [e, Nat.add_mul_div_left _ _ hB]
    omega
  · rcases Nat.lt_or_eq_of_le h with h | h
    · rw [Nat.div_eq_of_lt h, Nat.mod_eq_of_lt h]
      simp
    · subst h
      rw [Nat.div_self hbsz, Nat.mod_self, ceilDiv_zero B hB]
      simp

/-! ## Claims about `StreamLocalFile` -/

/-- Claim C5, as amended: streaming a readable file of `S` bytes with a buffer size
`B > 0` that `make` can allocate (`B` fits in `int` and is within the allocation limit of
the runtime) returns without error for every handler, the slices passed to the handler
concatenate to the file, so their lengths sum to exactly `S`, and the handler is called
`ceil(S / B)` times when `B ≥ 4096`, and
`floor(S / 4096) * ceil(4096 / B) + ceil((S mod 4096) / B)` times when `B < 4096`; this
number is `ceil(S / B)` whenever `B ≥ 4096`, `B` divides `4096` or `S ≤ 4096`. -/
theorem StreamLocalFile_chunk_count (maxAlloc : Nat)
    (osOpen : String → Except GoError (List Byte))
    (path : String) (f : List Byte) (B : Nat) (hopen : osOpen path = .ok f) (hB : 0 < B)
    (hcap : makeSucceeds maxAlloc B = true) :
    ∃ slices : List (List Byte),
      (∀ (σ : Type) (handle : σ → List Byte → σ) (s : σ) (budget : Nat),
          f.length + 1 ≤ budget →
            StreamLocalFile maxAlloc osOpen path B handle s budget
              = .returned (slices.foldl handle s) none)
      ∧ slices.flatten = f
      ∧ (slices.map List.length).sum = f.length
      ∧ slices.length = (if defaultBufSize ≤ B then ceilDiv f.length B
          else (f.length / defaultBufSize) * ceilDiv defaultBufSize B
            + ceilDiv (f.length % defaultBufSize) B)
      ∧ ((defaultBufSize ≤ B ∨ B ∣ defaultBufSize ∨ f.length ≤ defaultBufSize) →
          slices.length = ceilDiv f.length B) := by
  obtain ⟨_, hflat, hlen⟩ := file_reads_facts f B hB
  refine ⟨delivered (Reader.reads B (f.length + 1) (NewReader f)), ?_, hflat, ?_, hlen, ?_⟩
  · intro σ handle s budget hbud
    exact StreamLocalFile_ok maxAlloc osOpen path f B handle s budget hopen hB hcap hbud
  · rw [← List.length_flatten, hflat]
  · intro hcase
    rw [hlen]
    by_cases hle : defaultBufSize ≤ B
    · simp [hle]
    · simp only [hle, if_false]
      have hcase2 : B ∣ defaultBufSize ∨ f.length ≤ defaultBufSize := by
        rcases hcase with h | h | h
        · exact absurd h hle
        · exact Or.inl h
        · exact Or.inr h
      exact refillChunkCount_eq_ceilDiv defaultBufSize B f.length hB (by decide) hcase2

theorem StreamLocalFile_chunk_count_witness :
    makeSucceeds (2 ^ 48) 2 = true
    ∧ ∃ slices : List (List Byte),
      (∀ (σ : Type) (handle : σ → List Byte → σ) (s : σ) (budget : Nat),
          ([1, 2, 3, 4, 5] : List Byte).length + 1 ≤ budget →
            StreamLocalFile (2 ^ 48) (fun _ => .ok [1, 2, 3, 4, 5]) "file.pdf" 2 handle s
                budget
              = .returned (slices.foldl handle s) none)
      ∧ slices.flatten = [1, 2, 3, 4, 5]
      ∧ (slices.map List.length).sum = ([1, 2, 3, 4, 5] : List Byte).length
      ∧ slices.length = (if defaultBufSize ≤ 2 then ceilDiv ([1, 2, 3, 4, 5] : List Byte).length 2
          else (([1, 2, 3, 4, 5] : List Byte).length / defaultBufSize) * ceilDiv defaultBufSize 2
            + ceilDiv (([1, 2, 3, 4, 5] : List Byte).length % defaultBufSize) 2)
      ∧ ((defaultBufSize ≤ 2 ∨ 2 ∣ defaultBufSize
            ∨ ([1, 2, 3, 4, 5] : List Byte).length ≤ defaultBufSize) →
          slices.length = ceilDiv ([1, 2, 3, 4, 5] : List Byte).length 2) :=
  ⟨by decide,
    StreamLocalFile_chunk_count (2 ^ 48) (fun _ => .ok [1, 2, 3, 4, 5]) "file.pdf"
      [1, 2, 3, 4, 5] 2 rfl (by decide) (by decide)⟩

/-- Claim C5, counterexample, at two inputs. A file of `S = 4097` bytes streamed with
`B = 4095`: the first read fills the 4096-byte internal buffer and copies 4095 bytes, the
second returns the one byte left in the buffer, the third the last byte of the file, so
the handler is called three times, and `ceil(4097 / 4095) = 2`. A file of `S = 5` bytes
streamed with `B = 2 ^ 62` under the allocation limit `2 ^ 48`: `make` panics, the
handler is never called, and `ceil(5 / 2 ^ 62) = 1`. -/
theorem StreamLocalFile_more_chunks_than_ceil :
    (∃ slices : List (List Byte),
      StreamLocalFile (2 ^ 48) (fun _ => .ok (List.replicate 4097 0)) "file.pdf" 4095 record []
          4098
          = .returned slices none
      ∧ slices.length = 3
      ∧ ceilDiv 4097 4095 = 2
      ∧ slices.length ≠ ceilDiv (List.replicate 4097 (0 : Byte)).length 4095)
    ∧ (StreamLocalFile (2 ^ 48) (fun _ => .ok [1, 2, 3, 4, 5]) "file.pdf" (2 ^ 62) record [] 6
          = .panicked "makeslice: cap out of range" []
      ∧ ceilDiv ([1, 2, 3, 4, 5] : List Byte).length (2 ^ 62) = 1) := by
  have hlenf : (List.replicate 4097 (0 : Byte)).length = 4097 := List.length_replicate 4097 0
  obtain ⟨_, _, hlen⟩ := file_reads_facts (List.replicate 4097 (0 : Byte)) 4095 (by decide)
  have hrun := StreamLocalFile_ok (2 ^ 48) (fun _ => .ok (List.replicate 4097 (0 : Byte)))
    "file.pdf" (List.replicate 4097 0) 4095 record [] 4098 rfl (by decide) (by decide)
    (by rw [hlenf])
  rw [foldl_record, List.nil_append] at hrun
  rw [hlenf] at hlen hrun
  have h3 : (if defaultBufSize ≤ 4095 then ceilDiv 4097 4095
      else refillChunkCount defaultBufSize 4095 4097) = 3 := by decide
  have h2 : ceilDiv 4097 4095 = 2 := by decide
  rw [h3] at hlen
  refine ⟨⟨_, hrun, hlen, h2, ?_⟩, ?_, by decide⟩
  · rw [hlen, hlenf, h2]
    decide
  · exact StreamLocalFile_cap_out_of_range (2 ^ 48) (fun _ => .ok [1, 2, 3, 4, 5]) "file.pdf"
      [1, 2, 3, 4, 5] (2 ^ 62) record [] 6 rfl (by decide)

/-- Claim C3, as amended: when opening the file fails, `StreamLocalFile` never invokes the
handler and returns nothing to its caller: it logs the failure with `log.Fatalf`, which
terminates the process. -/
theorem StreamLocalFile_open_failure_is_fatal {σ : Type} (maxAlloc : Nat)
    (osOpen : String → Except GoError (List Byte)) (path : String) (e : GoError) (B : Nat)
    (handle : σ → List Byte → σ) (s : σ) (budget : Nat) (hopen : osOpen path = .error e) :
    StreamLocalFile maxAlloc osOpen path B handle s budget
      = .fatal ("Fail to read file " ++ path ++ ": " ++ e.Error) s := by
  unfold StreamLocalFile
  rw [hopen]

theorem StreamLocalFile_open_failure_is_fatal_witness :
    StreamLocalFile (2 ^ 48)
        (fun _ => .error (.notExist "open missing.pdf: no such file or directory"))
        "missing.pdf" 1024 record [] 8
      = .fatal ("Fail to read file " ++ "missing.pdf" ++ ": "
          ++ (GoError.notExist "open missing.pdf: no such file or directory").Error) [] :=
  StreamLocalFile_open_failure_is_fatal (2 ^ 48)
    (fun _ => .error (.notExist "open missing.pdf: no such file or directory"))
    "missing.pdf" (.notExist "open missing.pdf: no such file or directory") 1024 record [] 8 rfl

/-- Claim C3, counterexample: opening `missing.pdf` fails with "no such file or
directory"; the call does not return an error to its caller, it ends in `log.Fatalf`. -/
theorem StreamLocalFile_open_failure_does_not_return :
    StreamLocalFile (2 ^ 48)
        (fun _ => .error (.notExist "open missing.pdf: no such file or directory"))
        "missing.pdf" 1024 record [] 8
      = .fatal "Fail to read file missing.pdf: open missing.pdf: no such file or directory" []
    ∧ ¬ ∃ err, StreamLocalFile (2 ^ 48)
        (fun _ => .error (.notExist "open missing.pdf: no such file or directory"))
        "missing.pdf" 1024 record [] 8 = .returned [] (some err) := by
  refine ⟨by decide, ?_⟩
  rintro ⟨err, h⟩
  have hf : StreamLocalFile (2 ^ 48)
      (fun _ => .error (.notExist "open missing.pdf: no such file or directory"))
      "missing.pdf" 1024 record [] 8
    = .fatal "Fail to read file missing.pdf: open missing.pdf: no such file or directory" [] := by
    decide
  rw [hf] at h
  cases h

/-- Claim C9: a reader whose first read returns zero bytes with end-of-stream makes
`stream` return `bytes = 0`, `chunks = 0` and a nil error with the handler state
untouched (the handler is never called); for every buffer size `B > 0` that is the first
read of a zero-length file, so `StreamLocalFile` on it, with a buffer size that `make`
can allocate, returns a nil error without a handler call. -/
theorem stream_zero_length_file {σ : Type} (handle : σ → List Byte → σ) (s : σ)
    (rest : List ReadResult) (maxAlloc : Nat) (osOpen : String → Except GoError (List Byte))
    (path : String) (B budget : Nat) (hopen : osOpen path = .ok []) (hB : 0 < B)
    (hbud : 1 ≤ budget) :
    stream handle (⟨[], some .EOF⟩ :: rest) s = .returned s 0 0 none
    ∧ (Reader.reads B budget (NewReader [])).head? = some ⟨[], some .EOF⟩
    ∧ stream handle (Reader.reads B budget (NewReader [])) s = .returned s 0 0 none
    ∧ (makeSucceeds maxAlloc B = true →
        StreamLocalFile maxAlloc osOpen path B handle s budget = .returned s none) := by
  have hz : (⟨[], some .EOF⟩ : ReadResult).isZeroEOF = true := by decide
  have hB0 : B ≠ 0 := by omega
  obtain ⟨k, rfl⟩ : ∃ k, budget = k + 1 := ⟨budget - 1, by omega⟩
  have hread : (Reader.Read (NewReader []) B).1 = ⟨[], some .EOF⟩ := by
    unfold NewReader
    by_cases hle : defaultBufSize ≤ B
    · rw [Read_direct_EOF defaultBufSize B hB0 hle]
    · rw [Read_refill_EOF defaultBufSize B hB0 (Nat.not_le.mp hle)]
  have hrun : stream handle (Reader.reads B (k + 1) (NewReader [])) s = .returned s 0 0 none := by
    rw [reads_succ, hread]
    exact streamLoop_zeroEOF handle _ _ s 0 0 hz
  refine ⟨streamLoop_zeroEOF handle _ rest s 0 0 hz, ?_, hrun, ?_⟩
  · rw [reads_succ, hread]
    rfl
  · intro hcap
    unfold StreamLocalFile
    rw [hopen]
    simp only [hcap, if_true]
    rw [hrun]

theorem stream_zero_length_file_witness :
    stream record (⟨[], some .EOF⟩ :: []) [] = .returned [] 0 0 none
    ∧ (Reader.reads 1024 1 (NewReader [])).head? = some ⟨[], some .EOF⟩
    ∧ stream record (Reader.reads 1024 1 (NewReader [])) [] = .returned [] 0 0 none
    ∧ makeSucceeds (2 ^ 48) 1024 = true
    ∧ StreamLocalFile (2 ^ 48) (fun _ => .ok []) "empty.txt" 1024 record [] 1
        = .returned [] none :=
  have h := stream_zero_length_file record [] [] (2 ^ 48) (fun _ => .ok []) "empty.txt" 1024 1
    rfl (by decide) (by decide)
  ⟨h.1, h.2.1, h.2.2.1, by decide, h.2.2.2 (by decide)⟩

/-! ## `FileInfo.Exists` -/

/-- What `Exists` returns once the path resolves: `(false, nil)` exactly when the stat
fails with "not found", and `(true, nil)` in every other case, a stat that fails with
another error included. -/
theorem Exists_of_resolved (getPath : String → String → Except GoError String)
    (osStat : String → Option GoError) (i : FileInfo) (channel file : String)
    (hfile : i.ToFile getPath channel = .ok file) :
    (i.Exists getPath osStat channel = (false, none) ↔ errorsIsNotExist (osStat file) = true)
    ∧ (errorsIsNotExist (osStat file) = false → i.Exists getPath osStat channel = (true, none))
    ∧ (i.Exists getPath osStat channel).2 = none := by
  unfold FileInfo.Exists
  rw [hfile]
  by_cases h : errorsIsNotExist (osStat file) = true
  · simp [h]
  · simp [h]

/-- Claim C1, the failing input: the path `main/file.pdf` resolves and `os.Stat` fails
with "permission denied", an error that is not "not found"; `Exists` returns
`(true, nil)`, a boolean answer with a nil error. -/
theorem Exists_hides_stat_failure :
    (FileInfo.mk "file.pdf" 0).ToFile (fun rel channel => .ok (channel ++ "/" ++ rel)) "main"
      = .ok "main/file.pdf"
    ∧ errorsIsNotExist (some (.other "stat main/file.pdf: permission denied")) = false
    ∧ (FileInfo.mk "file.pdf" 0).Exists (fun rel channel => .ok (channel ++ "/" ++ rel))
        (fun _ => some (.other "stat main/file.pdf: permission denied")) "main"
      = (true, none) :=
  ⟨rfl, by decide, by decide⟩

/-! ## `getFilePath` -/

/-- The verb `%v` writes the rune `os.PathSeparator` as the decimal number `47`. -/
theorem fmtV_PathSeparator : fmtV (.rune PathSeparator) = "47" := by
  decide

/-- The result of `getFilePath` for every root and relative path. -/
theorem getFilePath_eq (fsRootPath relPath : String) :
    getFilePath fsRootPath relPath = fsRootPath ++ "47" ++ relPath := by
  unfold getFilePath
  rw [fmtV_PathSeparator]
  rfl

/-- Claim C6, the failing input: with root `fs` and relative path `file.pdf` the result
is `fs47file.pdf`, not `fs/file.pdf`: the separator is formatted as a number. -/
theorem getFilePath_writes_separator_code :
    getFilePath "fs" "file.pdf" = "fs47file.pdf"
    ∧ getFilePath "fs" "file.pdf" ≠ "fs" ++ "/" ++ "file.pdf" := by
  decide

/-! ## Upload-back loop of `TestReceiveSend` -/

theorem uploadBackLoop_flatten (d : List Byte) :
    ∀ (budget i : Nat), d.length - i ≤ budget →
      (uploadBackLoop d budget i).flatten = (d.take (d.length - 1)).drop i := by
  intro budget
  induction budget with
  | zero =>
    intro i hi
    have e : (d.take (d.length - 1)).drop i = [] := by
      apply List.drop_eq_nil_of_le
      simp only [List.length_take]
      omega
    rw [e]
    rfl
  | succ k ih =>
    intro i hi
    unfold uploadBackLoop
    by_cases hlt : i < d.length
    · simp only [hlt, if_true, List.flatten_cons]
      rw [ih (i + bufSize) (by unfold bufSize; omega)]
      by_cases hstop : d.length ≤ i + bufSize
      · simp only [hstop, if_true]
        have e : (d.take (d.length - 1)).drop (i + bufSize) = [] := by
          apply List.drop_eq_nil_of_le
          simp only [List.length_take]
          omega
        rw [e, List.append_nil, List.drop_take]
      · simp only [hstop, if_false]
        have e1 : i + bufSize - i = bufSize := by omega
        have e2 : (d.drop i).take bufSize
            = ((d.take (d.length - 1)).drop i).take bufSize := by
          rw [List.drop_take, List.take_take]
          congr 1
          omega
        have e3 : (d.take (d.length - 1)).drop (i + bufSize)
            = ((d.take (d.length - 1)).drop i).drop bufSize := by
          rw [List.drop_drop]
        rw [e1, e2, e3, List.take_append_drop]
    · simp only [hlt, if_false]
      have e : (d.take (d.length - 1)).drop i = [] := by
        apply List.drop_eq_nil_of_le
        simp only [List.length_take]
        omega
      rw [e]
      rfl

/-- The file written back holds the buffer without its last byte. -/
theorem writtenFile_eq (d : List Byte) : writtenFile d = d.take (d.length - 1) := by
  unfold writtenFile uploadBack
  rw [uploadBackLoop_flatten d d.length 0 (by omega)]
  rfl

/-- The file written back is one byte shorter than a buffer of capacity at least 1. -/
theorem writtenFile_length (d : List Byte) (h : 1 ≤ d.length) :
    (writtenFile d).length + 1 = d.length := by
  rw [writtenFile_eq, List.length_take]
  omega

/-- Claim C10, the failing input: a downloaded buffer of capacity 3 holding `10, 20, 30`.
The loop runs once with `end = cap - 1 = 2` and writes `downloaded[0:2]`; the file written
back is `10, 20`, one byte short of the buffer. -/
theorem uploadBack_drops_last_byte :
    uploadBack [10, 20, 30] = [[10, 20]]
    ∧ writtenFile [10, 20, 30] = [10, 20]
    ∧ writtenFile [10, 20, 30] ≠ [10, 20, 30]
    ∧ (writtenFile [10, 20, 30]).length ≠ ([10, 20, 30] : List Byte).length := by
  decide

end EpFs
